import Mathlib

/-!
# Verification of the `rusty-reckoning` transaction engine

A shallow embedding of the payment-processing core (`src/engine.rs`,
`src/stores/accounts.rs`, `src/stores/transactions.rs`, `src/dto.rs`) in
Lean 4, together with proofs of the spec's claims about it.

Modelling conventions:
* `rust_decimal::Decimal` is modelled by `ℚ`; addition, subtraction and
  comparison on `Decimal` are exact within its 96-bit range, so `ℚ`
  captures the arithmetic used by the engine precisely.
* `u16` client ids and `u32` transaction ids are modelled by `Nat`; the
  engine only compares ids for equality, so bit-width never matters.
* Rust's `HashMap` stores are modelled by association lists; `HashSet`
  by a duplicate-free list.  Mutation through `&mut` references becomes
  explicit read / write-back on the engine state.
* Each handler `process_*` returns the new engine state paired with a
  possible `Error`, mirroring `&mut self` plus the `Result<(), Error>`
  return of the Rust methods; the state threaded through the branches
  reflects each Rust statement in source order.
-/

namespace RustyReckoning

/-- Business-rule errors, from `src/error.rs`.  The Rust enum declaration
omits `TransactionClientMismatch`, yet `TransactionsStore::get_deposit_mut`
returns `Error::TransactionClientMismatch` and the engine's tests match on
it, so the variant is part of the error type in use and is included here. -/
inductive Error where
  | AccountLocked
  | AccountNotFound
  | AmountMustBePositive
  | DuplicateTransaction
  | InsufficientFunds
  | InvalidTransaction
  | TransactionAlreadyDisputed
  | TransactionNotDisputed
  | TransactionNotFound
  | TransactionClientMismatch
deriving DecidableEq, Repr

/-- The five transaction kinds, from `src/dto.rs` (`TransactionType`). -/
inductive TransactionType where
  | Deposit
  | Withdrawal
  | Dispute
  | Resolve
  | Chargeback
deriving DecidableEq, Repr

/-- An incoming transaction record, from `src/dto.rs` (`Transaction`). -/
structure Transaction where
  tx_type : TransactionType
  client : Nat
  tx : Nat
  amount : Option ℚ
deriving DecidableEq, Repr

/-- Account state, from `src/stores/accounts.rs` (`Account`). -/
structure Account where
  id : Nat
  available : ℚ
  held : ℚ
  locked : Bool
deriving DecidableEq, Repr

/-- `Account::total`: `available + held`, derived, never stored. -/
def Account.total (a : Account) : ℚ := a.available + a.held

/-- Association-list lookup by key, first binding wins (the model of
`HashMap::get`). -/
def lookupKey {β : Type} (k : Nat) : List (Nat × β) → Option β
  | [] => none
  | (k', v) :: rest => if k' = k then some v else lookupKey k rest

/-- Association-list insert-or-update: replaces the first binding of `k`,
or appends a fresh binding (the model of `HashMap::insert` /
`entry(..).or_insert(..)` followed by mutation through the reference). -/
def setKey {β : Type} (k : Nat) (v : β) : List (Nat × β) → List (Nat × β)
  | [] => [(k, v)]
  | (k', v') :: rest =>
      if k' = k then (k, v) :: rest else (k', v') :: setKey k v rest

/-- The account ledger store, from `src/stores/accounts.rs`
(`AccountsStore`): a map from client id to `Account`. -/
structure AccountsStore where
  accounts : List (Nat × Account)
deriving DecidableEq, Repr

namespace AccountsStore

/-- `AccountsStore::new`. -/
def new : AccountsStore := ⟨[]⟩

/-- Read-only lookup of a client's account (`HashMap::get`). -/
def find? (s : AccountsStore) (client : Nat) : Option Account :=
  lookupKey client s.accounts

/-- `AccountsStore::check_account_lock`: rejects `AccountLocked` when the
client's account exists and is locked; an absent client passes. -/
def check_account_lock (s : AccountsStore) (client : Nat) : Option Error :=
  match s.find? client with
  | some account => if account.locked then some .AccountLocked else none
  | none => none

/-- The account value `AccountsStore::get_or_create_mut` exposes: the
existing account, or the fresh `{available: 0, held: 0, locked: false}`
inserted when absent.  The caller writes the mutated account back with
`set`. -/
def get_or_create (s : AccountsStore) (client : Nat) : Account :=
  match s.find? client with
  | some account => account
  | none => { id := client, available := 0, held := 0, locked := false }

/-- Write an account back into the store (the effect of mutating through
the `&mut Account` returned by `get_or_create_mut` / `get_mut`). -/
def set (s : AccountsStore) (client : Nat) (a : Account) : AccountsStore :=
  ⟨setKey client a s.accounts⟩

end AccountsStore

/-- A stored deposit record, from `src/stores/transactions.rs`
(`StoredDeposit`). -/
structure StoredDeposit where
  client : Nat
  amount : ℚ
  disputed : Bool
deriving DecidableEq, Repr

/-- The deposit-history store, from `src/stores/transactions.rs`
(`TransactionsStore`): all successful deposits keyed by tx id, plus the
dedupe set of processed deposit/withdrawal tx ids. -/
structure TransactionsStore where
  deposits : List (Nat × StoredDeposit)
  processed : List Nat
deriving DecidableEq, Repr

namespace TransactionsStore

/-- `TransactionsStore::new`. -/
def new : TransactionsStore := ⟨[], []⟩

/-- `TransactionsStore::is_processed`. -/
def is_processed (s : TransactionsStore) (tx : Nat) : Bool :=
  s.processed.contains tx

/-- `TransactionsStore::mark_processed` (`HashSet::insert`). -/
def mark_processed (s : TransactionsStore) (tx : Nat) : TransactionsStore :=
  { s with processed :=
      if s.processed.contains tx then s.processed else tx :: s.processed }

/-- `TransactionsStore::store_new_deposit`: rejects `DuplicateTransaction`
when a deposit with the same tx id already exists, else records the new
deposit with `disputed := false`. -/
def store_new_deposit (s : TransactionsStore) (tx client : Nat) (amount : ℚ) :
    Except Error TransactionsStore :=
  match lookupKey tx s.deposits with
  | some _ => .error .DuplicateTransaction
  | none =>
      .ok { s with deposits :=
        (tx, { client := client, amount := amount, disputed := false }) :: s.deposits }

/-- The read half of `TransactionsStore::get_deposit_mut`: the deposit for
`tx` if it exists and belongs to `client`. -/
def get_deposit (s : TransactionsStore) (client tx : Nat) :
    Except Error StoredDeposit :=
  match lookupKey tx s.deposits with
  | none => .error .TransactionNotFound
  | some d => if d.client ≠ client then .error .TransactionClientMismatch else .ok d

/-- Write a deposit record back (mutation through the `&mut StoredDeposit`
returned by `get_deposit_mut`). -/
def set_deposit (s : TransactionsStore) (tx : Nat) (d : StoredDeposit) :
    TransactionsStore :=
  { s with deposits := setKey tx d s.deposits }

end TransactionsStore

/-- The transaction engine, from `src/engine.rs` (`Engine`). -/
structure Engine where
  accounts : AccountsStore
  transactions : TransactionsStore
deriving DecidableEq, Repr

namespace Engine

/-- `Engine::new`. -/
def new : Engine := ⟨AccountsStore.new, TransactionsStore.new⟩

/-- `Engine::process_deposit`. -/
def process_deposit (e : Engine) (client tx : Nat) (amount : ℚ) :
    Engine × Option Error :=
  if amount ≤ 0 then (e, some .AmountMustBePositive)
  else if e.transactions.is_processed tx then (e, some .DuplicateTransaction)
  else
    match e.transactions.store_new_deposit tx client amount with
    | .error err => (e, some err)
    | .ok ts =>
        let account := e.accounts.get_or_create client
        let account := { account with available := account.available + amount }
        (⟨e.accounts.set client account, ts.mark_processed tx⟩, none)

/-- `Engine::process_withdrawal`. -/
def process_withdrawal (e : Engine) (client tx : Nat) (amount : ℚ) :
    Engine × Option Error :=
  if amount ≤ 0 then (e, some .AmountMustBePositive)
  else if e.transactions.is_processed tx then (e, some .DuplicateTransaction)
  else
    match e.accounts.find? client with
    | none => (e, some .AccountNotFound)
    | some account =>
        if account.available < amount then (e, some .InsufficientFunds)
        else
          let account := { account with available := account.available - amount }
          (⟨e.accounts.set client account, e.transactions.mark_processed tx⟩, none)

/-- `Engine::process_dispute`. -/
def process_dispute (e : Engine) (client tx : Nat) : Engine × Option Error :=
  match e.transactions.get_deposit client tx with
  | .error err => (e, some err)
  | .ok d =>
      if d.disputed then (e, some .TransactionAlreadyDisputed)
      else
        let ts := e.transactions.set_deposit tx { d with disputed := true }
        let amount := d.amount
        let account := e.accounts.get_or_create client
        let account := { account with held := account.held + amount,
                                      available := account.available - amount }
        (⟨e.accounts.set client account, ts⟩, none)

/-- `Engine::process_resolve`. -/
def process_resolve (e : Engine) (client tx : Nat) : Engine × Option Error :=
  match e.transactions.get_deposit client tx with
  | .error err => (e, some err)
  | .ok d =>
      if !d.disputed then (e, some .TransactionNotDisputed)
      else
        let ts := e.transactions.set_deposit tx { d with disputed := false }
        let amount := d.amount
        let account := e.accounts.get_or_create client
        let account := { account with held := account.held - amount,
                                      available := account.available + amount }
        (⟨e.accounts.set client account, ts⟩, none)

/-- `Engine::process_chargeback`. -/
def process_chargeback (e : Engine) (client tx : Nat) : Engine × Option Error :=
  match e.transactions.get_deposit client tx with
  | .error err => (e, some err)
  | .ok d =>
      if !d.disputed then (e, some .TransactionNotDisputed)
      else
        let ts := e.transactions.set_deposit tx { d with disputed := false }
        let amount := d.amount
        let account := e.accounts.get_or_create client
        let account := { account with held := account.held - amount, locked := true }
        (⟨e.accounts.set client account, ts⟩, none)

/-- `Engine::process_transaction`: lock check first, then dispatch on the
transaction type; a deposit or withdrawal missing its amount fails
`InvalidTransaction`. -/
def process_transaction (e : Engine) (t : Transaction) : Engine × Option Error :=
  match e.accounts.check_account_lock t.client with
  | some err => (e, some err)
  | none =>
      match t.tx_type with
      | .Deposit =>
          match t.amount with
          | none => (e, some .InvalidTransaction)
          | some amount => e.process_deposit t.client t.tx amount
      | .Withdrawal =>
          match t.amount with
          | none => (e, some .InvalidTransaction)
          | some amount => e.process_withdrawal t.client t.tx amount
      | .Dispute => e.process_dispute t.client t.tx
      | .Resolve => e.process_resolve t.client t.tx
      | .Chargeback => e.process_chargeback t.client t.tx

/-- Run a whole input stream in order, dropping per-record results: the
caller's "record and continue" policy from `src/runner.rs`. -/
def processAll (e : Engine) : List Transaction → Engine
  | [] => e
  | t :: ts => processAll (e.process_transaction t).1 ts

end Engine

/-! ## Verification-layer definitions

Quantities the spec's claims talk about, defined over the embedded state. -/

/-- Total `available` across all accounts (`Σ available` of the spec's
conservation property). -/
def sumAvailable (e : Engine) : ℚ :=
  (e.accounts.accounts.map (fun p => p.2.available)).sum

/-- Net flow actually applied by the engine along a run: the sum of the
amounts of the successfully processed deposits minus the sum of the
amounts of the successfully processed withdrawals. -/
def netFlow (e : Engine) : List Transaction → ℚ
  | [] => 0
  | t :: ts =>
      (match (e.process_transaction t).2, t.tx_type, t.amount with
       | none, .Deposit, some a => a
       | none, .Withdrawal, some a => -a
       | _, _, _ => 0) + netFlow (e.process_transaction t).1 ts

/-- Net flow of the raw input stream, ignoring whether the engine accepted
each record: the sum of all deposit amounts minus the sum of all
withdrawal amounts appearing in the input. -/
def inputFlow : List Transaction → ℚ
  | [] => 0
  | t :: ts =>
      (match t.tx_type, t.amount with
       | .Deposit, some a => a
       | .Withdrawal, some a => -a
       | _, _ => 0) + inputFlow ts

/-- A client's `held` balance in an accounts store, `0` when absent. -/
def heldOfA (s : AccountsStore) (c : Nat) : ℚ :=
  match s.find? c with
  | some a => a.held
  | none => 0

/-- A client's `held` balance, `0` for an absent account. -/
def heldOf (e : Engine) (c : Nat) : ℚ := heldOfA e.accounts c

/-- A client's `(available, held)` pair, `(0, 0)` for an absent account. -/
def balancesOf (e : Engine) (c : Nat) : ℚ × ℚ :=
  match e.accounts.find? c with
  | some a => (a.available, a.held)
  | none => (0, 0)

/-- The contribution of one stored deposit record to client `c`'s held
funds: its amount when it is `c`'s and currently disputed, else `0`. -/
def contrib (c : Nat) (d : StoredDeposit) : ℚ :=
  if d.client = c ∧ d.disputed then d.amount else 0

/-- The summed held contributions of a deposit list for client `c`. -/
def disputedHeldD (l : List (Nat × StoredDeposit)) (c : Nat) : ℚ :=
  (l.map (fun p => contrib c p.2)).sum

/-- The exact sum of the amounts of the stored deposit records owned by
client `c` whose `disputed` flag is set. -/
def disputedHeld (e : Engine) (c : Nat) : ℚ :=
  disputedHeldD e.transactions.deposits c

/-- The clients credited by a successful deposit somewhere along a run. -/
def depositClients (e : Engine) : List Transaction → List Nat
  | [] => []
  | t :: ts =>
      (if t.tx_type = .Deposit ∧ (e.process_transaction t).2 = none
        then [t.client] else []) ++
        depositClients (e.process_transaction t).1 ts

/-- The engine invariants maintained by `process_transaction`:
every account's `held` equals the summed amounts of its disputed deposits,
every stored deposit has a positive amount, and an account exists exactly
for the clients owning at least one stored deposit record. -/
def Inv (e : Engine) : Prop :=
  (∀ c, heldOf e c = disputedHeld e c) ∧
  (∀ p ∈ e.transactions.deposits, 0 < (p.2 : StoredDeposit).amount) ∧
  (∀ c, (e.accounts.find? c).isSome ↔
    ∃ tx d, lookupKey tx e.transactions.deposits = some d ∧ d.client = c)

/-- Truncation of a rational toward zero to an integer: the model of
integer truncation used by `rust_decimal`'s `RoundingStrategy::ToZero`. -/
def truncTowardZero (q : ℚ) : ℤ :=
  if 0 ≤ q then ⌊q⌋ else ⌈q⌉

/-- `Decimal::round_dp_with_strategy(n, RoundingStrategy::ToZero)`:
truncation toward zero to `n` fractional digits, the documented behavior
of the external `rust_decimal` primitive used by `src/dto.rs`. -/
def roundDpToZero (n : Nat) (q : ℚ) : ℚ :=
  (truncTowardZero (q * 10 ^ n) : ℚ) / 10 ^ n

/-- `deserialize_decimal_4dp` from `src/dto.rs`: an optional parsed amount
is truncated toward zero to 4 decimal places on ingestion. -/
def deserialize_decimal_4dp (amount : Option ℚ) : Option ℚ :=
  amount.map (roundDpToZero 4)

/-! ## Basic lemmas about the store primitives -/

theorem lookupKey_setKey {β : Type} (a k : Nat) (v : β) (l : List (Nat × β)) :
    lookupKey a (setKey k v l) = if a = k then some v else lookupKey a l := by
  induction l with
  | nil =>
      simp only [setKey, lookupKey]
      by_cases h : a = k
      · simp [h]
      · have h' : ¬ k = a := fun hk => h hk.symm
        simp [h, h']
  | cons p rest ih =>
      obtain ⟨k', v'⟩ := p
      simp only [setKey]
      by_cases hk : k' = k
      · simp only [if_pos hk, lookupKey, hk]
        by_cases ha : a = k
        · simp [ha]
        · have h' : ¬ k = a := fun h => ha h.symm
          simp [ha, h']
      · simp only [if_neg hk, lookupKey]
        by_cases ha : k' = a
        · have h' : ¬ a = k := fun h => hk (ha.trans h)
          simp [ha, h']
        · simp [ha, ih]

theorem sum_map_setKey_found {β : Type} (f : β → ℚ) (k : Nat) (v b : β)
    (l : List (Nat × β)) (h : lookupKey k l = some b) :
    ((setKey k v l).map (fun p => f p.2)).sum =
      (l.map (fun p => f p.2)).sum - f b + f v := by
  induction l with
  | nil => simp [lookupKey] at h
  | cons p rest ih =>
      obtain ⟨k', v'⟩ := p
      simp only [lookupKey] at h
      by_cases hk : k' = k
      · subst hk
        simp only [if_pos rfl] at h
        cases h
        simp [setKey]
        ring
      · simp only [if_neg hk] at h
        simp only [setKey, if_neg hk, List.map_cons, List.sum_cons, ih h]
        ring

theorem sum_map_setKey_none {β : Type} (f : β → ℚ) (k : Nat) (v : β)
    (l : List (Nat × β)) (h : lookupKey k l = none) :
    ((setKey k v l).map (fun p => f p.2)).sum =
      (l.map (fun p => f p.2)).sum + f v := by
  induction l with
  | nil => simp [setKey]
  | cons p rest ih =>
      obtain ⟨k', v'⟩ := p
      simp only [lookupKey] at h
      by_cases hk : k' = k
      · simp [if_pos hk] at h
      · simp only [if_neg hk] at h
        simp only [setKey, if_neg hk, List.map_cons, List.sum_cons, ih h]
        ring

/-! ## Error paths leave the state untouched -/

theorem process_deposit_error (e : Engine) (client tx : Nat) (amount : ℚ)
    (h : (e.process_deposit client tx amount).2.isSome) :
    (e.process_deposit client tx amount).1 = e := by
  unfold Engine.process_deposit at *
  by_cases h1 : amount ≤ 0
  · simp [h1]
  · by_cases h2 : e.transactions.is_processed tx
    · simp [h1, h2]
    · cases h3 : e.transactions.store_new_deposit tx client amount with
      | error err => simp [h1, h2, h3]
      | ok ts => simp [h1, h2, h3] at h

theorem process_withdrawal_error (e : Engine) (client tx : Nat) (amount : ℚ)
    (h : (e.process_withdrawal client tx amount).2.isSome) :
    (e.process_withdrawal client tx amount).1 = e := by
  unfold Engine.process_withdrawal at *
  by_cases h1 : amount ≤ 0
  · simp [h1]
  · by_cases h2 : e.transactions.is_processed tx
    · simp [h1, h2]
    · cases h3 : e.accounts.find? client with
      | none => simp [h1, h2, h3]
      | some account =>
          by_cases h4 : account.available < amount
          · simp [h1, h2, h3, h4]
          · simp [h1, h2, h3, h4] at h

theorem process_dispute_error (e : Engine) (client tx : Nat)
    (h : (e.process_dispute client tx).2.isSome) :
    (e.process_dispute client tx).1 = e := by
  unfold Engine.process_dispute at *
  cases h1 : e.transactions.get_deposit client tx with
  | error err => simp [h1]
  | ok d =>
      by_cases h2 : d.disputed
      · simp [h1, h2]
      · simp [h1, h2] at h

theorem process_resolve_error (e : Engine) (client tx : Nat)
    (h : (e.process_resolve client tx).2.isSome) :
    (e.process_resolve client tx).1 = e := by
  unfold Engine.process_resolve at *
  cases h1 : e.transactions.get_deposit client tx with
  | error err => simp [h1]
  | ok d =>
      by_cases h2 : d.disputed
      · simp [h1, h2] at h
      · simp [h1, h2]

theorem process_chargeback_error (e : Engine) (client tx : Nat)
    (h : (e.process_chargeback client tx).2.isSome) :
    (e.process_chargeback client tx).1 = e := by
  unfold Engine.process_chargeback at *
  cases h1 : e.transactions.get_deposit client tx with
  | error err => simp [h1]
  | ok d =>
      by_cases h2 : d.disputed
      · simp [h1, h2] at h
      · simp [h1, h2]

/-- Any rejection from `process_transaction` leaves the engine state
exactly as it was: validation fully precedes mutation in every handler. -/
theorem process_transaction_error (e : Engine) (t : Transaction)
    (h : (e.process_transaction t).2.isSome) :
    (e.process_transaction t).1 = e := by
  unfold Engine.process_transaction at *
  cases h0 : e.accounts.check_account_lock t.client with
  | some err => simp [h0]
  | none =>
      simp only [h0] at h ⊢
      cases ht : t.tx_type <;> simp only [ht] at h ⊢
      · cases ha : t.amount with
        | none => simp
        | some amount =>
            simp only [ha] at h ⊢
            exact process_deposit_error e t.client t.tx amount h
      · cases ha : t.amount with
        | none => simp
        | some amount =>
            simp only [ha] at h ⊢
            exact process_withdrawal_error e t.client t.tx amount h
      · exact process_dispute_error e t.client t.tx h
      · exact process_resolve_error e t.client t.tx h
      · exact process_chargeback_error e t.client t.tx h

/-! ## Success paths, characterized -/

theorem process_deposit_success (e : Engine) (client tx : Nat) (amount : ℚ)
    (h : (e.process_deposit client tx amount).2 = none) :
    0 < amount ∧ e.transactions.is_processed tx = false ∧
    lookupKey tx e.transactions.deposits = none ∧
    (e.process_deposit client tx amount).1 =
      ⟨e.accounts.set client
        { e.accounts.get_or_create client with
          available := (e.accounts.get_or_create client).available + amount },
        ⟨(tx, ⟨client, amount, false⟩) :: e.transactions.deposits,
          tx :: e.transactions.processed⟩⟩ := by
  unfold Engine.process_deposit at h ⊢
  by_cases h1 : amount ≤ 0
  · simp [h1] at h
  · by_cases h2 : e.transactions.is_processed tx
    · simp [h1, h2] at h
    · cases hl : lookupKey tx e.transactions.deposits with
      | some d =>
          unfold TransactionsStore.store_new_deposit at h
          simp [h1, h2, hl] at h
      | none =>
          have hst : e.transactions.store_new_deposit tx client amount =
              .ok { e.transactions with deposits :=
                (tx, ⟨client, amount, false⟩) :: e.transactions.deposits } := by
            unfold TransactionsStore.store_new_deposit
            simp [hl]
          have h2' : e.transactions.is_processed tx = false := by simpa using h2
          have h2c : e.transactions.processed.contains tx = false := h2'
          have hmem : tx ∉ e.transactions.processed := by simpa using h2c
          refine ⟨not_le.mp h1, h2', rfl, ?_⟩
          simp [h1, h2, hst, TransactionsStore.mark_processed, h2c, hmem]

theorem process_withdrawal_success (e : Engine) (client tx : Nat) (amount : ℚ)
    (h : (e.process_withdrawal client tx amount).2 = none) :
    ∃ account, e.accounts.find? client = some account ∧
    0 < amount ∧ amount ≤ account.available ∧
    e.transactions.is_processed tx = false ∧
    (e.process_withdrawal client tx amount).1 =
      ⟨e.accounts.set client
        { account with available := account.available - amount },
        ⟨e.transactions.deposits, tx :: e.transactions.processed⟩⟩ := by
  unfold Engine.process_withdrawal at h ⊢
  by_cases h1 : amount ≤ 0
  · simp [h1] at h
  · by_cases h2 : e.transactions.is_processed tx
    · simp [h1, h2] at h
    · cases hl : e.accounts.find? client with
      | none => simp [h1, h2, hl] at h
      | some account =>
          by_cases h4 : account.available < amount
          · simp [h1, h2, hl, h4] at h
          · have h2' : e.transactions.is_processed tx = false := by simpa using h2
            have h2c : e.transactions.processed.contains tx = false := h2'
            have hmem : tx ∉ e.transactions.processed := by simpa using h2c
            refine ⟨account, rfl, not_le.mp h1, not_lt.mp h4, h2', ?_⟩
            simp [h1, h2, hl, h4, TransactionsStore.mark_processed, h2c, hmem]

theorem process_dispute_success (e : Engine) (client tx : Nat)
    (h : (e.process_dispute client tx).2 = none) :
    ∃ d, lookupKey tx e.transactions.deposits = some d ∧
    d.client = client ∧ d.disputed = false ∧
    (e.process_dispute client tx).1 =
      ⟨e.accounts.set client
        { e.accounts.get_or_create client with
          held := (e.accounts.get_or_create client).held + d.amount,
          available := (e.accounts.get_or_create client).available - d.amount },
        ⟨setKey tx { d with disputed := true } e.transactions.deposits,
          e.transactions.processed⟩⟩ := by
  unfold Engine.process_dispute at h ⊢
  cases hl : lookupKey tx e.transactions.deposits with
  | none =>
      unfold TransactionsStore.get_deposit at h
      simp [hl] at h
  | some d =>
      by_cases hc : d.client = client
      · have hg : e.transactions.get_deposit client tx = .ok d := by
          unfold TransactionsStore.get_deposit
          simp [hl, hc]
        by_cases hd : d.disputed
        · simp [hg, hd] at h
        · have hd' : d.disputed = false := by simpa using hd
          refine ⟨d, rfl, hc, hd', ?_⟩
          simp [hg, hd, TransactionsStore.set_deposit]
      · unfold TransactionsStore.get_deposit at h
        simp [hl, hc] at h

theorem process_resolve_success (e : Engine) (client tx : Nat)
    (h : (e.process_resolve client tx).2 = none) :
    ∃ d, lookupKey tx e.transactions.deposits = some d ∧
    d.client = client ∧ d.disputed = true ∧
    (e.process_resolve client tx).1 =
      ⟨e.accounts.set client
        { e.accounts.get_or_create client with
          held := (e.accounts.get_or_create client).held - d.amount,
          available := (e.accounts.get_or_create client).available + d.amount },
        ⟨setKey tx { d with disputed := false } e.transactions.deposits,
          e.transactions.processed⟩⟩ := by
  unfold Engine.process_resolve at h ⊢
  cases hl : lookupKey tx e.transactions.deposits with
  | none =>
      unfold TransactionsStore.get_deposit at h
      simp [hl] at h
  | some d =>
      by_cases hc : d.client = client
      · have hg : e.transactions.get_deposit client tx = .ok d := by
          unfold TransactionsStore.get_deposit
          simp [hl, hc]
        by_cases hd : d.disputed
        · refine ⟨d, rfl, hc, hd, ?_⟩
          simp [hg, hd, TransactionsStore.set_deposit]
        · simp [hg, hd] at h
      · unfold TransactionsStore.get_deposit at h
        simp [hl, hc] at h

theorem process_chargeback_success (e : Engine) (client tx : Nat)
    (h : (e.process_chargeback client tx).2 = none) :
    ∃ d, lookupKey tx e.transactions.deposits = some d ∧
    d.client = client ∧ d.disputed = true ∧
    (e.process_chargeback client tx).1 =
      ⟨e.accounts.set client
        { e.accounts.get_or_create client with
          held := (e.accounts.get_or_create client).held - d.amount,
          locked := true },
        ⟨setKey tx { d with disputed := false } e.transactions.deposits,
          e.transactions.processed⟩⟩ := by
  unfold Engine.process_chargeback at h ⊢
  cases hl : lookupKey tx e.transactions.deposits with
  | none =>
      unfold TransactionsStore.get_deposit at h
      simp [hl] at h
  | some d =>
      by_cases hc : d.client = client
      · have hg : e.transactions.get_deposit client tx = .ok d := by
          unfold TransactionsStore.get_deposit
          simp [hl, hc]
        by_cases hd : d.disputed
        · refine ⟨d, rfl, hc, hd, ?_⟩
          simp [hg, hd, TransactionsStore.set_deposit]
        · simp [hg, hd] at h
      · unfold TransactionsStore.get_deposit at h
        simp [hl, hc] at h

/-! ## Claim theorems: error handling and locking -/

/-- Claim C1: for every engine state and every incoming transaction, if
`process_transaction` returns an error (any business-rule rejection), the
engine's state — both the accounts store and the transactions store —
after the call is exactly equal to its state before the call. -/
theorem claim_C1 (e : Engine) (t : Transaction) (err : Error)
    (h : (e.process_transaction t).2 = some err) :
    (e.process_transaction t).1 = e :=
  process_transaction_error e t (by simp [h])

theorem claim_C1_witness :
    (Engine.new.process_transaction ⟨.Withdrawal, 1, 1, some 50⟩).2 =
      some .AccountNotFound ∧
    (Engine.new.process_transaction ⟨.Withdrawal, 1, 1, some 50⟩).1 = Engine.new := by
  have hev : (Engine.new.process_transaction ⟨.Withdrawal, 1, 1, some 50⟩).2 =
      some .AccountNotFound := by
    norm_num [Engine.new, Engine.process_transaction, Engine.process_withdrawal,
      AccountsStore.new, AccountsStore.check_account_lock, AccountsStore.find?,
      TransactionsStore.new, TransactionsStore.is_processed, lookupKey]
  exact ⟨hev, claim_C1 _ _ .AccountNotFound hev⟩

/-- Claim C2: whenever some client's account has `locked = true`, every
transaction of any type (deposit, withdrawal, dispute, resolve,
chargeback) referencing that client returns `AccountLocked` and mutates
no state; the lock check precedes all type-specific logic. -/
theorem claim_C2 (e : Engine) (t : Transaction) (a : Account)
    (h1 : e.accounts.find? t.client = some a) (h2 : a.locked = true) :
    e.process_transaction t = (e, some .AccountLocked) := by
  unfold Engine.process_transaction AccountsStore.check_account_lock
  simp [h1, h2]

theorem claim_C2_witness :
    (⟨⟨[(1, ⟨1, 0, 0, true⟩)]⟩, .new⟩ : Engine).process_transaction
        ⟨.Deposit, 1, 2, some 50⟩ =
      (⟨⟨[(1, ⟨1, 0, 0, true⟩)]⟩, .new⟩, some .AccountLocked) :=
  claim_C2 _ _ ⟨1, 0, 0, true⟩ (by simp [AccountsStore.find?, lookupKey]) rfl

/-- Claim C4: if the deposit record for `tx` is owned by a client other
than `clientB`, and `clientB`'s account is not locked, a dispute for `tx`
by `clientB` returns `TransactionClientMismatch` and mutates nothing:
neither account nor the deposit record. -/
theorem claim_C4 (e : Engine) (clientB tx : Nat) (d : StoredDeposit)
    (hd : lookupKey tx e.transactions.deposits = some d)
    (hne : d.client ≠ clientB)
    (hlock : ∀ a, e.accounts.find? clientB = some a → a.locked = false) :
    e.process_transaction ⟨.Dispute, clientB, tx, none⟩ =
      (e, some .TransactionClientMismatch) := by
  have hchk : e.accounts.check_account_lock clientB = none := by
    unfold AccountsStore.check_account_lock
    cases hf : e.accounts.find? clientB with
    | none => simp
    | some a => simp [hlock a hf]
  unfold Engine.process_transaction
  dsimp only
  rw [hchk]
  unfold Engine.process_dispute TransactionsStore.get_deposit
  rw [hd]
  simp [hne]

theorem claim_C4_witness :
    (⟨⟨[(1, ⟨1, 100, 0, false⟩)]⟩, ⟨[(7, ⟨1, 100, false⟩)], [7]⟩⟩ : Engine).process_transaction
        ⟨.Dispute, 2, 7, none⟩ =
      (⟨⟨[(1, ⟨1, 100, 0, false⟩)]⟩, ⟨[(7, ⟨1, 100, false⟩)], [7]⟩⟩, some .TransactionClientMismatch) :=
  claim_C4 _ 2 7 ⟨1, 100, false⟩ (by simp [lookupKey]) (by simp)
    (by intro a ha; simp [AccountsStore.find?, lookupKey] at ha)

/-! ## Conservation of available funds -/

theorem sumAvailable_step (e : Engine) (t : Transaction)
    (ht : t.tx_type = .Deposit ∨ t.tx_type = .Withdrawal) :
    sumAvailable (e.process_transaction t).1 =
      sumAvailable e +
        (match (e.process_transaction t).2, t.tx_type, t.amount with
         | none, .Deposit, some a => a
         | none, .Withdrawal, some a => -a
         | _, _, _ => 0) := by
  cases hr : (e.process_transaction t).2 with
  | some err =>
      rw [process_transaction_error e t (by simp [hr])]
      simp
  | none =>
      rcases ht with ht | ht
      · unfold Engine.process_transaction at hr ⊢
        cases h0 : e.accounts.check_account_lock t.client with
        | some err => simp [h0] at hr
        | none =>
            simp only [h0, ht] at hr ⊢
            cases ha : t.amount with
            | none => simp [ha] at hr
            | some a =>
                simp only [ha] at hr ⊢
                obtain ⟨hpos, hproc, hfresh, hstate⟩ :=
                  process_deposit_success e t.client t.tx a hr
                rw [hstate]
                cases hf : e.accounts.find? t.client with
                | some b =>
                    have hf' : lookupKey t.client e.accounts.accounts = some b := hf
                    have hsum := sum_map_setKey_found (fun x => x.available)
                      t.client { e.accounts.get_or_create t.client with
                        available := (e.accounts.get_or_create t.client).available + a }
                      b e.accounts.accounts hf'
                    simp only [sumAvailable, AccountsStore.set] at *
                    rw [hsum]
                    simp [AccountsStore.get_or_create, hf]
                    ring
                | none =>
                    have hf' : lookupKey t.client e.accounts.accounts = none := hf
                    have hsum := sum_map_setKey_none (fun x => x.available)
                      t.client { e.accounts.get_or_create t.client with
                        available := (e.accounts.get_or_create t.client).available + a }
                      e.accounts.accounts hf'
                    simp only [sumAvailable, AccountsStore.set] at *
                    rw [hsum]
                    simp [AccountsStore.get_or_create, hf]
      · unfold Engine.process_transaction at hr ⊢
        cases h0 : e.accounts.check_account_lock t.client with
        | some err => simp [h0] at hr
        | none =>
            simp only [h0, ht] at hr ⊢
            cases ha : t.amount with
            | none => simp [ha] at hr
            | some a =>
                simp only [ha] at hr ⊢
                obtain ⟨account, hfind, hpos, hle, hproc, hstate⟩ :=
                  process_withdrawal_success e t.client t.tx a hr
                rw [hstate]
                have hf' : lookupKey t.client e.accounts.accounts = some account := hfind
                have hsum := sum_map_setKey_found (fun x => x.available)
                  t.client { account with available := account.available - a }
                  account e.accounts.accounts hf'
                simp only [sumAvailable, AccountsStore.set] at *
                rw [hsum]
                ring

theorem sumAvailable_processAll (e : Engine) (ts : List Transaction)
    (h : ∀ t ∈ ts, t.tx_type = .Deposit ∨ t.tx_type = .Withdrawal) :
    sumAvailable (Engine.processAll e ts) = sumAvailable e + netFlow e ts := by
  induction ts generalizing e with
  | nil => simp [Engine.processAll, netFlow]
  | cons t ts ih =>
      have hstep := sumAvailable_step e t (h t (by simp))
      have hrest := ih (e.process_transaction t).1 (fun t' ht' => h t' (by simp [ht']))
      simp only [Engine.processAll, netFlow]
      rw [hrest, hstep]
      ring

/-- Claim C3, counterexample: the claim as stated fails when a transaction
is rejected.  The singleton sequence containing one withdrawal of 5 from a
fresh engine consists only of deposits/withdrawals, yet the ledger's total
`available` is `0` (the withdrawal is rejected `AccountNotFound`) while the
input's deposits-minus-withdrawals is `-5`. -/
theorem claim_C3_counterexample :
    (⟨.Withdrawal, 1, 1, some 5⟩ : Transaction).tx_type = .Withdrawal ∧
    sumAvailable (Engine.processAll Engine.new [⟨.Withdrawal, 1, 1, some 5⟩]) = 0 ∧
    inputFlow [⟨.Withdrawal, 1, 1, some 5⟩] = -5 := by
  refine ⟨rfl, ?_, ?_⟩
  · norm_num [Engine.processAll, Engine.new, Engine.process_transaction,
      Engine.process_withdrawal, AccountsStore.new, AccountsStore.check_account_lock,
      AccountsStore.find?, TransactionsStore.new, TransactionsStore.is_processed,
      lookupKey, sumAvailable]
  · norm_num [inputFlow]

/-- Claim C3 (amended): for every sequence of transactions containing only
deposits and withdrawals, processed in order from a fresh engine, the sum
of `available` across all accounts equals the sum of the successfully
applied deposits minus the sum of the successfully applied withdrawals,
exactly, with no rounding drift. -/
theorem claim_C3 (ts : List Transaction)
    (h : ∀ t ∈ ts, t.tx_type = .Deposit ∨ t.tx_type = .Withdrawal) :
    sumAvailable (Engine.processAll Engine.new ts) = netFlow Engine.new ts := by
  have hmain := sumAvailable_processAll Engine.new ts h
  have h0 : sumAvailable Engine.new = 0 := by
    simp [sumAvailable, Engine.new, AccountsStore.new]
  rw [hmain, h0, zero_add]

theorem claim_C3_witness :
    (∀ t ∈ ([⟨.Deposit, 1, 1, some 100⟩, ⟨.Withdrawal, 1, 2, some 30⟩] :
        List Transaction), t.tx_type = .Deposit ∨ t.tx_type = .Withdrawal) ∧
    sumAvailable (Engine.processAll Engine.new
        [⟨.Deposit, 1, 1, some 100⟩, ⟨.Withdrawal, 1, 2, some 30⟩]) =
      netFlow Engine.new [⟨.Deposit, 1, 1, some 100⟩, ⟨.Withdrawal, 1, 2, some 30⟩] :=
  ⟨by decide, claim_C3 _ (by decide)⟩

/-! ## Duplicate detection across deposits and withdrawals -/

theorem is_processed_after_depwd (e : Engine) (t : Transaction)
    (ht : t.tx_type = .Deposit ∨ t.tx_type = .Withdrawal)
    (h : (e.process_transaction t).2 = none) :
    (e.process_transaction t).1.transactions.is_processed t.tx = true := by
  rcases ht with ht | ht
  · unfold Engine.process_transaction at h ⊢
    cases h0 : e.accounts.check_account_lock t.client with
    | some err => simp [h0] at h
    | none =>
        simp only [h0, ht] at h ⊢
        cases ha : t.amount with
        | none => simp [ha] at h
        | some a =>
            simp only [ha] at h ⊢
            obtain ⟨-, -, -, hstate⟩ := process_deposit_success e t.client t.tx a h
            rw [hstate]
            simp [TransactionsStore.is_processed]
  · unfold Engine.process_transaction at h ⊢
    cases h0 : e.accounts.check_account_lock t.client with
    | some err => simp [h0] at h
    | none =>
        simp only [h0, ht] at h ⊢
        cases ha : t.amount with
        | none => simp [ha] at h
        | some a =>
            simp only [ha] at h ⊢
            obtain ⟨account, -, -, -, -, hstate⟩ :=
              process_withdrawal_success e t.client t.tx a h
            rw [hstate]
            simp [TransactionsStore.is_processed]

theorem depwd_processed_rejected (e : Engine) (t : Transaction)
    (ht : t.tx_type = .Deposit ∨ t.tx_type = .Withdrawal)
    (a : ℚ) (ha : t.amount = some a) (hpos : 0 < a)
    (hproc : e.transactions.is_processed t.tx = true)
    (hlock : ∀ acc, e.accounts.find? t.client = some acc → acc.locked = false) :
    e.process_transaction t = (e, some .DuplicateTransaction) := by
  have hchk : e.accounts.check_account_lock t.client = none := by
    unfold AccountsStore.check_account_lock
    cases hf : e.accounts.find? t.client with
    | none => simp
    | some acc => simp [hlock acc hf]
  have hnp : ¬ a ≤ 0 := not_le.mpr hpos
  rcases ht with ht | ht
  · unfold Engine.process_transaction Engine.process_deposit
    simp [hchk, ht, ha, hnp, hproc]
  · unfold Engine.process_transaction Engine.process_withdrawal
    simp [hchk, ht, ha, hnp, hproc]

/-- Claim C5: deposit and withdrawal transaction ids share a single
duplicate-detection namespace.  After a deposit or withdrawal succeeds,
any further deposit or withdrawal (of either type) reusing the same tx id
— with a positive amount, against an unlocked client — is rejected
`DuplicateTransaction`, and the state stays identical to the state after
the single first application. -/
theorem claim_C5 (e : Engine) (t t' : Transaction)
    (ht : t.tx_type = .Deposit ∨ t.tx_type = .Withdrawal)
    (ht' : t'.tx_type = .Deposit ∨ t'.tx_type = .Withdrawal)
    (htx : t'.tx = t.tx)
    (hfirst : (e.process_transaction t).2 = none)
    (a' : ℚ) (ha' : t'.amount = some a') (hpos : 0 < a')
    (hlock : ∀ acc, (e.process_transaction t).1.accounts.find? t'.client = some acc →
      acc.locked = false) :
    (e.process_transaction t).1.process_transaction t' =
      ((e.process_transaction t).1, some .DuplicateTransaction) := by
  have hproc : (e.process_transaction t).1.transactions.is_processed t'.tx = true := by
    rw [htx]
    exact is_processed_after_depwd e t ht hfirst
  exact depwd_processed_rejected _ t' ht' a' ha' hpos hproc hlock

theorem claim_C5_witness :
    ((⟨.Withdrawal, 1, 1, some 50⟩ : Transaction).tx = (⟨.Deposit, 1, 1, some 100⟩ : Transaction).tx) ∧
    (Engine.new.process_transaction ⟨.Deposit, 1, 1, some 100⟩).2 = none ∧
    (0 : ℚ) < 50 ∧
    (Engine.new.process_transaction ⟨.Deposit, 1, 1, some 100⟩).1.process_transaction
        ⟨.Withdrawal, 1, 1, some 50⟩ =
      ((Engine.new.process_transaction ⟨.Deposit, 1, 1, some 100⟩).1,
        some .DuplicateTransaction) := by
  have hfirst : (Engine.new.process_transaction ⟨.Deposit, 1, 1, some 100⟩).2 = none := by
    norm_num [Engine.new, Engine.process_transaction, Engine.process_deposit,
      AccountsStore.new, AccountsStore.check_account_lock, AccountsStore.find?,
      AccountsStore.get_or_create, AccountsStore.set, TransactionsStore.new,
      TransactionsStore.is_processed, TransactionsStore.store_new_deposit,
      TransactionsStore.mark_processed, lookupKey, setKey]
  refine ⟨rfl, hfirst, by norm_num, ?_⟩
  refine claim_C5 Engine.new ⟨.Deposit, 1, 1, some 100⟩ ⟨.Withdrawal, 1, 1, some 50⟩
    (Or.inl rfl) (Or.inr rfl) rfl hfirst 50 rfl (by norm_num) ?_
  intro acc hacc
  norm_num [Engine.new, Engine.process_transaction, Engine.process_deposit,
    AccountsStore.new, AccountsStore.check_account_lock, AccountsStore.find?,
    AccountsStore.get_or_create, AccountsStore.set, TransactionsStore.new,
    TransactionsStore.is_processed, TransactionsStore.store_new_deposit,
    TransactionsStore.mark_processed, lookupKey, setKey] at hacc
  rw [← hacc]

theorem get_or_create_eq_of_find? (s : AccountsStore) (c : Nat) (a : Account)
    (h : s.find? c = some a) : s.get_or_create c = a := by
  unfold AccountsStore.get_or_create
  rw [h]

theorem balancesOf_eq_of_find? (e : Engine) (c : Nat) (a : Account)
    (h : e.accounts.find? c = some a) : balancesOf e c = (a.available, a.held) := by
  unfold balancesOf
  rw [h]

/-! ## Dispute reversibility -/

/-- Claim C6: for a recorded, currently-undisputed deposit owned by an
unlocked client, a dispute followed by a resolve both succeed, return the
owning account's `(available, held)` pair to its exact pre-dispute values,
and leave the deposit disputable again. -/
theorem claim_C6 (e : Engine) (client tx : Nat) (d : StoredDeposit)
    (hd : lookupKey tx e.transactions.deposits = some d)
    (hc : d.client = client) (hnd : d.disputed = false)
    (hlock : ∀ a, e.accounts.find? client = some a → a.locked = false) :
    (e.process_transaction ⟨.Dispute, client, tx, none⟩).2 = none ∧
    ((e.process_transaction ⟨.Dispute, client, tx, none⟩).1.process_transaction
        ⟨.Resolve, client, tx, none⟩).2 = none ∧
    balancesOf ((e.process_transaction ⟨.Dispute, client, tx, none⟩).1.process_transaction
        ⟨.Resolve, client, tx, none⟩).1 client = balancesOf e client ∧
    (((e.process_transaction ⟨.Dispute, client, tx, none⟩).1.process_transaction
        ⟨.Resolve, client, tx, none⟩).1.process_transaction
        ⟨.Dispute, client, tx, none⟩).2 = none := by
  have hchk : e.accounts.check_account_lock client = none := by
    unfold AccountsStore.check_account_lock
    cases hf : e.accounts.find? client with
    | none => simp
    | some a => simp [hlock a hf]
  have hg : e.transactions.get_deposit client tx = .ok d := by
    unfold TransactionsStore.get_deposit
    simp [hd, hc]
  have hlockacc : (e.accounts.get_or_create client).locked = false := by
    unfold AccountsStore.get_or_create
    cases hf : e.accounts.find? client with
    | none => simp
    | some a => simp [hlock a hf]
  have hbal : balancesOf e client =
      ((e.accounts.get_or_create client).available,
        (e.accounts.get_or_create client).held) := by
    unfold balancesOf AccountsStore.get_or_create
    cases hf : e.accounts.find? client <;> simp [hf]
  -- step 1: the dispute succeeds, final state explicit
  have h1 : e.process_transaction ⟨.Dispute, client, tx, none⟩ =
      (⟨e.accounts.set client ⟨(e.accounts.get_or_create client).id, (e.accounts.get_or_create client).available - d.amount, (e.accounts.get_or_create client).held + d.amount, (e.accounts.get_or_create client).locked⟩, e.transactions.set_deposit tx ⟨d.client, d.amount, true⟩⟩, none) := by
    unfold Engine.process_transaction Engine.process_dispute
    dsimp only
    rw [hchk, hg]
    simp [hnd]
  rw [h1]
  have hfind1 : (e.accounts.set client ⟨(e.accounts.get_or_create client).id, (e.accounts.get_or_create client).available - d.amount, (e.accounts.get_or_create client).held + d.amount, (e.accounts.get_or_create client).locked⟩).find? client = some ⟨(e.accounts.get_or_create client).id, (e.accounts.get_or_create client).available - d.amount, (e.accounts.get_or_create client).held + d.amount, (e.accounts.get_or_create client).locked⟩ := by
    unfold AccountsStore.find? AccountsStore.set
    rw [lookupKey_setKey]
    simp
  have hchk1 : (e.accounts.set client ⟨(e.accounts.get_or_create client).id, (e.accounts.get_or_create client).available - d.amount, (e.accounts.get_or_create client).held + d.amount, (e.accounts.get_or_create client).locked⟩).check_account_lock client = none := by
    unfold AccountsStore.check_account_lock
    rw [hfind1]
    simp [hlockacc]
  have hg1 : (e.transactions.set_deposit tx ⟨d.client, d.amount, true⟩).get_deposit client tx = .ok ⟨d.client, d.amount, true⟩ := by
    unfold TransactionsStore.get_deposit TransactionsStore.set_deposit
    rw [lookupKey_setKey]
    simp [hc]
  have hgoc1 : (e.accounts.set client ⟨(e.accounts.get_or_create client).id, (e.accounts.get_or_create client).available - d.amount, (e.accounts.get_or_create client).held + d.amount, (e.accounts.get_or_create client).locked⟩).get_or_create client = ⟨(e.accounts.get_or_create client).id, (e.accounts.get_or_create client).available - d.amount, (e.accounts.get_or_create client).held + d.amount, (e.accounts.get_or_create client).locked⟩ :=
    get_or_create_eq_of_find? _ client _ hfind1
  -- step 2: the resolve succeeds, final state explicit
  have h2 : (⟨e.accounts.set client ⟨(e.accounts.get_or_create client).id, (e.accounts.get_or_create client).available - d.amount, (e.accounts.get_or_create client).held + d.amount, (e.accounts.get_or_create client).locked⟩, e.transactions.set_deposit tx ⟨d.client, d.amount, true⟩⟩ : Engine).process_transaction ⟨.Resolve, client, tx, none⟩ =
      (⟨(e.accounts.set client ⟨(e.accounts.get_or_create client).id, (e.accounts.get_or_create client).available - d.amount, (e.accounts.get_or_create client).held + d.amount, (e.accounts.get_or_create client).locked⟩).set client ⟨(e.accounts.get_or_create client).id, (e.accounts.get_or_create client).available - d.amount + d.amount, (e.accounts.get_or_create client).held + d.amount - d.amount, (e.accounts.get_or_create client).locked⟩, (e.transactions.set_deposit tx ⟨d.client, d.amount, true⟩).set_deposit tx ⟨d.client, d.amount, false⟩⟩, none) := by
    unfold Engine.process_transaction Engine.process_resolve
    dsimp only
    rw [hchk1, hg1]
    simp [hgoc1]
  rw [h2]
  have hfind2 : ((e.accounts.set client ⟨(e.accounts.get_or_create client).id, (e.accounts.get_or_create client).available - d.amount, (e.accounts.get_or_create client).held + d.amount, (e.accounts.get_or_create client).locked⟩).set client ⟨(e.accounts.get_or_create client).id, (e.accounts.get_or_create client).available - d.amount + d.amount, (e.accounts.get_or_create client).held + d.amount - d.amount, (e.accounts.get_or_create client).locked⟩).find? client = some ⟨(e.accounts.get_or_create client).id, (e.accounts.get_or_create client).available - d.amount + d.amount, (e.accounts.get_or_create client).held + d.amount - d.amount, (e.accounts.get_or_create client).locked⟩ := by
    unfold AccountsStore.find? AccountsStore.set
    rw [lookupKey_setKey]
    simp
  have hchk2 : ((e.accounts.set client ⟨(e.accounts.get_or_create client).id, (e.accounts.get_or_create client).available - d.amount, (e.accounts.get_or_create client).held + d.amount, (e.accounts.get_or_create client).locked⟩).set client ⟨(e.accounts.get_or_create client).id, (e.accounts.get_or_create client).available - d.amount + d.amount, (e.accounts.get_or_create client).held + d.amount - d.amount, (e.accounts.get_or_create client).locked⟩).check_account_lock client = none := by
    unfold AccountsStore.check_account_lock
    rw [hfind2]
    simp [hlockacc]
  have hg2 : ((e.transactions.set_deposit tx ⟨d.client, d.amount, true⟩).set_deposit tx ⟨d.client, d.amount, false⟩).get_deposit client tx = .ok ⟨d.client, d.amount, false⟩ := by
    unfold TransactionsStore.get_deposit TransactionsStore.set_deposit
    rw [lookupKey_setKey]
    simp [hc]
  refine ⟨rfl, rfl, ?_, ?_⟩
  · rw [hbal]
    simp only [balancesOf]
    rw [hfind2]
    simp
  · unfold Engine.process_transaction Engine.process_dispute
    dsimp only
    rw [hchk2, hg2]
    simp

theorem claim_C6_witness :
    (lookupKey 7 (⟨⟨[(1, ⟨1, 100, 0, false⟩)]⟩, ⟨[(7, ⟨1, 100, false⟩)], [7]⟩⟩ :
        Engine).transactions.deposits = some ⟨1, 100, false⟩) ∧
    balancesOf (((⟨⟨[(1, ⟨1, 100, 0, false⟩)]⟩, ⟨[(7, ⟨1, 100, false⟩)], [7]⟩⟩ :
        Engine).process_transaction ⟨.Dispute, 1, 7, none⟩).1.process_transaction
        ⟨.Resolve, 1, 7, none⟩).1 1 =
      balancesOf (⟨⟨[(1, ⟨1, 100, 0, false⟩)]⟩, ⟨[(7, ⟨1, 100, false⟩)], [7]⟩⟩ :
        Engine) 1 := by
  refine ⟨by simp [lookupKey], ?_⟩
  exact (claim_C6 _ 1 7 ⟨1, 100, false⟩ (by simp [lookupKey]) rfl rfl
    (by intro a ha; simp [AccountsStore.find?, lookupKey] at ha; rw [← ha])).2.2.1

/-! ## The negative-available scenario -/

/-- Claim C7: from a fresh engine, deposit(client 1, tx 1, 100),
withdrawal(client 1, tx 2, 75), dispute(client 1, tx 1),
chargeback(client 1, tx 1) all succeed, with available=25 after the
withdrawal; available=-75, held=100, total=25 after the dispute; and
available=-75, held=0, total=-75, locked=true after the chargeback: the
chargeback does not restore `available`. -/
theorem claim_C7 :
    (Engine.new.process_transaction ⟨.Deposit, 1, 1, some 100⟩).2 = none ∧
    ((Engine.processAll Engine.new [⟨.Deposit, 1, 1, some 100⟩]).process_transaction
        ⟨.Withdrawal, 1, 2, some 75⟩).2 = none ∧
    (Engine.processAll Engine.new [⟨.Deposit, 1, 1, some 100⟩,
        ⟨.Withdrawal, 1, 2, some 75⟩]).accounts.find? 1 = some ⟨1, 25, 0, false⟩ ∧
    ((Engine.processAll Engine.new [⟨.Deposit, 1, 1, some 100⟩,
        ⟨.Withdrawal, 1, 2, some 75⟩]).process_transaction
        ⟨.Dispute, 1, 1, none⟩).2 = none ∧
    (Engine.processAll Engine.new [⟨.Deposit, 1, 1, some 100⟩,
        ⟨.Withdrawal, 1, 2, some 75⟩, ⟨.Dispute, 1, 1, none⟩]).accounts.find? 1 =
      some ⟨1, -75, 100, false⟩ ∧
    Account.total ⟨1, -75, 100, false⟩ = 25 ∧
    ((Engine.processAll Engine.new [⟨.Deposit, 1, 1, some 100⟩,
        ⟨.Withdrawal, 1, 2, some 75⟩, ⟨.Dispute, 1, 1, none⟩]).process_transaction
        ⟨.Chargeback, 1, 1, none⟩).2 = none ∧
    (Engine.processAll Engine.new [⟨.Deposit, 1, 1, some 100⟩,
        ⟨.Withdrawal, 1, 2, some 75⟩, ⟨.Dispute, 1, 1, none⟩,
        ⟨.Chargeback, 1, 1, none⟩]).accounts.find? 1 = some ⟨1, -75, 0, true⟩ ∧
    Account.total ⟨1, -75, 0, true⟩ = -75 := by
  norm_num [Engine.processAll, Engine.new, Engine.process_transaction,
    Engine.process_deposit, Engine.process_withdrawal, Engine.process_dispute,
    Engine.process_chargeback, AccountsStore.new, AccountsStore.check_account_lock,
    AccountsStore.find?, AccountsStore.get_or_create, AccountsStore.set,
    TransactionsStore.new, TransactionsStore.is_processed,
    TransactionsStore.store_new_deposit, TransactionsStore.mark_processed,
    TransactionsStore.get_deposit, TransactionsStore.set_deposit,
    lookupKey, setKey, Account.total]

/-! ## Ingestion truncation -/

/-- Claim C9: every decimal amount parsed at ingress is truncated toward
zero to 4 fractional digits — never rounded to nearest or up: the stored
value moves toward zero, stays within `10⁻⁴` of the input, and is an exact
multiple of `10⁻⁴`; in particular `0.123499999` ingests as exactly
`0.1234`. -/
theorem claim_C9 (q : ℚ) :
    (0 ≤ q → roundDpToZero 4 q ≤ q) ∧
    (q < 0 → q ≤ roundDpToZero 4 q) ∧
    |roundDpToZero 4 q| ≤ |q| ∧
    |q - roundDpToZero 4 q| < 1 / 10 ^ 4 ∧
    (∃ k : ℤ, roundDpToZero 4 q = (k : ℚ) / 10 ^ 4) ∧
    deserialize_decimal_4dp (some (123499999 / 1000000000)) =
      some (1234 / 10 ^ 4) := by
  have hN : (0:ℚ) < 10 ^ 4 := by norm_num
  have hle : 0 ≤ q → roundDpToZero 4 q ≤ q := by
    intro hq
    have h0 : 0 ≤ q * 10 ^ 4 := mul_nonneg hq hN.le
    unfold roundDpToZero truncTowardZero
    rw [if_pos h0, div_le_iff₀ hN]
    exact Int.floor_le _
  have hge : q < 0 → q ≤ roundDpToZero 4 q := by
    intro hq
    have h0 : ¬ 0 ≤ q * 10 ^ 4 := not_le.mpr (mul_neg_of_neg_of_pos hq hN)
    unfold roundDpToZero truncTowardZero
    rw [if_neg h0, le_div_iff₀ hN]
    exact Int.le_ceil _
  have hnn : 0 ≤ q → 0 ≤ roundDpToZero 4 q := by
    intro hq
    have h0 : 0 ≤ q * 10 ^ 4 := mul_nonneg hq hN.le
    unfold roundDpToZero truncTowardZero
    rw [if_pos h0]
    have hfl : (0:ℚ) ≤ (⌊q * 10 ^ 4⌋ : ℚ) := by
      exact_mod_cast Int.floor_nonneg.mpr h0
    exact div_nonneg hfl hN.le
  have hnp : q < 0 → roundDpToZero 4 q ≤ 0 := by
    intro hq
    have h0 : ¬ 0 ≤ q * 10 ^ 4 := not_le.mpr (mul_neg_of_neg_of_pos hq hN)
    unfold roundDpToZero truncTowardZero
    rw [if_neg h0]
    have hq4 : q * 10 ^ 4 ≤ 0 := (mul_neg_of_neg_of_pos hq hN).le
    have hcl : (⌈q * 10 ^ 4⌉ : ℚ) ≤ 0 := by
      have : ⌈q * 10 ^ 4⌉ ≤ (0 : ℤ) := Int.ceil_le.mpr (by exact_mod_cast hq4)
      exact_mod_cast this
    exact div_nonpos_of_nonpos_of_nonneg hcl hN.le
  have hdiff : q - roundDpToZero 4 q =
      (q * 10 ^ 4 - (truncTowardZero (q * 10 ^ 4) : ℚ)) / 10 ^ 4 := by
    unfold roundDpToZero
    field_simp
  have hclose : |q - roundDpToZero 4 q| < 1 / 10 ^ 4 := by
    rw [hdiff, abs_div, abs_of_pos hN, div_lt_div_iff₀ hN hN]
    have habs : |q * 10 ^ 4 - (truncTowardZero (q * 10 ^ 4) : ℚ)| < 1 := by
      unfold truncTowardZero
      by_cases h0 : 0 ≤ q * 10 ^ 4
      · rw [if_pos h0, abs_of_nonneg (sub_nonneg.mpr (Int.floor_le _))]
        have := Int.lt_floor_add_one (q * 10 ^ 4)
        linarith
      · rw [if_neg h0, abs_of_nonpos (sub_nonpos.mpr (Int.le_ceil _)), neg_sub]
        have := Int.ceil_lt_add_one (q * 10 ^ 4)
        linarith
    calc |q * 10 ^ 4 - (truncTowardZero (q * 10 ^ 4) : ℚ)| * 10 ^ 4
        < 1 * 10 ^ 4 := by
          exact mul_lt_mul_of_pos_right habs hN
      _ = 1 * 10 ^ 4 := rfl
  refine ⟨hle, hge, ?_, hclose, ⟨truncTowardZero (q * 10 ^ 4), rfl⟩, ?_⟩
  · rcases le_or_lt 0 q with hq | hq
    · rw [abs_of_nonneg (hnn hq), abs_of_nonneg hq]
      exact hle hq
    · rw [abs_of_nonpos (hnp hq), abs_of_nonpos hq.le]
      exact neg_le_neg (hge hq)
  · have hfl : ⌊(123499999 : ℚ) / 1000000000 * 10 ^ 4⌋ = 1234 := by
      rw [Int.floor_eq_iff]
      norm_num
    unfold deserialize_decimal_4dp
    show some (roundDpToZero 4 (123499999 / 1000000000)) = some ((1234 : ℚ) / 10 ^ 4)
    unfold roundDpToZero truncTowardZero
    rw [if_pos (by norm_num : (0:ℚ) ≤ 123499999 / 1000000000 * 10 ^ 4), hfl]
    norm_num

theorem claim_C9_witness :
    (0:ℚ) ≤ 1/2 ∧ roundDpToZero 4 (1/2) ≤ 1/2 ∧
    (-1/2 : ℚ) < 0 ∧ (-1/2 : ℚ) ≤ roundDpToZero 4 (-1/2) :=
  ⟨by norm_num, (claim_C9 (1/2)).1 (by norm_num),
    by norm_num, (claim_C9 (-1/2)).2.1 (by norm_num)⟩

/-! ## Engine invariants: held funds and account existence -/

theorem mem_setKey {β : Type} (k : Nat) (v : β) (l : List (Nat × β))
    (p : Nat × β) (h : p ∈ setKey k v l) : p = (k, v) ∨ p ∈ l := by
  induction l with
  | nil => simpa [setKey] using h
  | cons q rest ih =>
      obtain ⟨k', v'⟩ := q
      simp only [setKey] at h
      by_cases hk : k' = k
      · rw [if_pos hk] at h
        rcases List.mem_cons.mp h with h | h
        · exact Or.inl h
        · exact Or.inr (List.mem_cons_of_mem _ h)
      · rw [if_neg hk] at h
        rcases List.mem_cons.mp h with h | h
        · exact Or.inr (h ▸ List.mem_cons_self _ _)
        · rcases ih h with h | h
          · exact Or.inl h
          · exact Or.inr (List.mem_cons_of_mem _ h)

theorem lookupKey_mem {β : Type} (k : Nat) (v : β) (l : List (Nat × β))
    (h : lookupKey k l = some v) : (k, v) ∈ l := by
  induction l with
  | nil => simp [lookupKey] at h
  | cons q rest ih =>
      obtain ⟨k', v'⟩ := q
      simp only [lookupKey] at h
      by_cases hk : k' = k
      · rw [if_pos hk] at h
        cases h
        exact hk ▸ List.mem_cons_self _ _
      · rw [if_neg hk] at h
        exact List.mem_cons_of_mem _ (ih h)

theorem find?_set (s : AccountsStore) (client c : Nat) (a : Account) :
    (s.set client a).find? c = if c = client then some a else s.find? c := by
  unfold AccountsStore.find? AccountsStore.set
  exact lookupKey_setKey c client a s.accounts

theorem get_or_create_held (s : AccountsStore) (c : Nat) :
    (s.get_or_create c).held = heldOfA s c := by
  unfold AccountsStore.get_or_create heldOfA
  cases hf : s.find? c <;> simp [hf]

theorem heldOfA_set (s : AccountsStore) (client c : Nat) (a : Account) :
    heldOfA (s.set client a) c = if c = client then a.held else heldOfA s c := by
  unfold heldOfA
  rw [find?_set]
  by_cases hc : c = client <;> simp [hc]

theorem disputedHeldD_cons (tx : Nat) (r : StoredDeposit)
    (l : List (Nat × StoredDeposit)) (c : Nat) :
    disputedHeldD ((tx, r) :: l) c = contrib c r + disputedHeldD l c := by
  simp [disputedHeldD]

theorem disputedHeldD_set (tx : Nat) (d d' : StoredDeposit)
    (l : List (Nat × StoredDeposit)) (c : Nat)
    (hl : lookupKey tx l = some d) :
    disputedHeldD (setKey tx d' l) c =
      disputedHeldD l c - contrib c d + contrib c d' :=
  sum_map_setKey_found (contrib c) tx d' d l hl

theorem exists_client_cons (tx : Nat) (r : StoredDeposit)
    (l : List (Nat × StoredDeposit)) (c : Nat)
    (hfresh : lookupKey tx l = none) :
    (∃ tx' d, lookupKey tx' ((tx, r) :: l) = some d ∧ d.client = c) ↔
      (r.client = c ∨ ∃ tx' d, lookupKey tx' l = some d ∧ d.client = c) := by
  constructor
  · rintro ⟨tx', d, hl, hc⟩
    simp only [lookupKey] at hl
    by_cases htx : tx = tx'
    · rw [if_pos htx] at hl
      cases hl
      exact Or.inl hc
    · rw [if_neg htx] at hl
      exact Or.inr ⟨tx', d, hl, hc⟩
  · rintro (hc | ⟨tx', d, hl, hc⟩)
    · exact ⟨tx, r, by simp [lookupKey], hc⟩
    · refine ⟨tx', d, ?_, hc⟩
      have htx : ¬ tx = tx' := by
        intro h
        rw [← h, hfresh] at hl
        exact Option.noConfusion hl
      simp [lookupKey, htx, hl]

theorem exists_client_setKey (tx : Nat) (d d' : StoredDeposit)
    (l : List (Nat × StoredDeposit)) (c : Nat)
    (hl : lookupKey tx l = some d) (hcl : d'.client = d.client) :
    (∃ tx' dd, lookupKey tx' (setKey tx d' l) = some dd ∧ dd.client = c) ↔
      (∃ tx' dd, lookupKey tx' l = some dd ∧ dd.client = c) := by
  constructor
  · rintro ⟨tx', dd, hdd, hc⟩
    rw [lookupKey_setKey] at hdd
    by_cases htx : tx' = tx
    · rw [if_pos htx] at hdd
      cases hdd
      exact ⟨tx, d, hl, by rw [← hcl]; exact hc⟩
    · rw [if_neg htx] at hdd
      exact ⟨tx', dd, hdd, hc⟩
  · rintro ⟨tx', dd, hdd, hc⟩
    by_cases htx : tx' = tx
    · subst htx
      rw [hl] at hdd
      cases hdd
      exact ⟨tx', d', by rw [lookupKey_setKey, if_pos rfl], by rw [hcl]; exact hc⟩
    · exact ⟨tx', dd, by rw [lookupKey_setKey, if_neg htx]; exact hdd, hc⟩

theorem Inv_new : Inv Engine.new := by
  refine ⟨?_, ?_, ?_⟩
  · intro c
    simp [heldOf, heldOfA, disputedHeld, disputedHeldD, Engine.new,
      AccountsStore.new, AccountsStore.find?, TransactionsStore.new, lookupKey]
  · intro p hp
    simp [Engine.new, TransactionsStore.new] at hp
  · intro c
    simp [Engine.new, AccountsStore.new, AccountsStore.find?, TransactionsStore.new,
      lookupKey]

theorem Inv_deposit (e : Engine) (client tx : Nat) (amount : ℚ)
    (hI : Inv e) (h : (e.process_deposit client tx amount).2 = none) :
    Inv (e.process_deposit client tx amount).1 := by
  obtain ⟨hheld, hamt, hacc⟩ := hI
  simp only [heldOf, disputedHeld] at hheld
  obtain ⟨hpos, hproc, hfresh, hstate⟩ := process_deposit_success e client tx amount h
  rw [hstate]
  refine ⟨?_, ?_, ?_⟩
  · intro c
    simp only [heldOf, disputedHeld]
    rw [heldOfA_set, disputedHeldD_cons]
    have hcontrib : contrib c ⟨client, amount, false⟩ = 0 := by simp [contrib]
    rw [hcontrib, zero_add]
    by_cases hc : c = client
    · rw [if_pos hc]
      show (e.accounts.get_or_create client).held = _
      rw [get_or_create_held, hc]
      exact hheld client
    · rw [if_neg hc]
      exact hheld c
  · intro p hp
    rcases List.mem_cons.mp hp with hp | hp
    · rw [hp]
      exact hpos
    · exact hamt p hp
  · intro c
    show ((AccountsStore.set _ _ _).find? c).isSome ↔ _
    rw [find?_set,
      exists_client_cons tx ⟨client, amount, false⟩ e.transactions.deposits c hfresh]
    by_cases hc : c = client
    · rw [if_pos hc]
      apply iff_of_true
      · simp
      · exact Or.inl hc.symm
    · rw [if_neg hc]
      constructor
      · intro h'
        exact Or.inr ((hacc c).mp h')
      · rintro (h' | h')
        · exact absurd h'.symm hc
        · exact (hacc c).mpr h'

theorem Inv_withdrawal (e : Engine) (client tx : Nat) (amount : ℚ)
    (hI : Inv e) (h : (e.process_withdrawal client tx amount).2 = none) :
    Inv (e.process_withdrawal client tx amount).1 := by
  obtain ⟨hheld, hamt, hacc⟩ := hI
  simp only [heldOf, disputedHeld] at hheld
  obtain ⟨account, hfind, hpos, hle, hproc, hstate⟩ :=
    process_withdrawal_success e client tx amount h
  rw [hstate]
  refine ⟨?_, ?_, ?_⟩
  · intro c
    simp only [heldOf, disputedHeld]
    rw [heldOfA_set]
    by_cases hc : c = client
    · rw [if_pos hc]
      show account.held = _
      have : account.held = heldOfA e.accounts client := by
        unfold heldOfA
        rw [hfind]
      rw [this, hc]
      exact hheld client
    · rw [if_neg hc]
      exact hheld c
  · intro p hp
    exact hamt p hp
  · intro c
    show ((AccountsStore.set _ _ _).find? c).isSome ↔ _
    rw [find?_set]
    by_cases hc : c = client
    · rw [if_pos hc]
      apply iff_of_true
      · simp
      · exact (hacc c).mp (by rw [hc, hfind]; simp)
    · rw [if_neg hc]
      exact hacc c

theorem Inv_dispute (e : Engine) (client tx : Nat)
    (hI : Inv e) (h : (e.process_dispute client tx).2 = none) :
    Inv (e.process_dispute client tx).1 := by
  obtain ⟨hheld, hamt, hacc⟩ := hI
  simp only [heldOf, disputedHeld] at hheld
  obtain ⟨d, hl, hcl, hnd, hstate⟩ := process_dispute_success e client tx h
  rw [hstate]
  refine ⟨?_, ?_, ?_⟩
  · intro c
    simp only [heldOf, disputedHeld]
    rw [heldOfA_set, disputedHeldD_set tx d _ _ c hl]
    have hc0 : contrib c d = 0 := by simp [contrib, hnd]
    rw [hc0, sub_zero]
    by_cases hc : c = client
    · rw [if_pos hc]
      have hc1 : contrib c { d with disputed := true } = d.amount := by
        simp [contrib, hcl, hc]
      rw [hc1]
      show (e.accounts.get_or_create client).held + d.amount = _
      rw [get_or_create_held, hc]
      rw [hheld client]
    · rw [if_neg hc]
      have hc1 : contrib c { d with disputed := true } = 0 := by
        have : ¬ d.client = c := by rw [hcl]; exact fun h' => hc h'.symm
        simp [contrib, this]
      rw [hc1, add_zero]
      exact hheld c
  · intro p hp
    rcases mem_setKey _ _ _ _ hp with hp | hp
    · rw [hp]
      exact hamt (tx, d) (lookupKey_mem _ _ _ hl)
    · exact hamt p hp
  · intro c
    dsimp only
    rw [find?_set, exists_client_setKey tx d { d with disputed := true }
      e.transactions.deposits c hl rfl]
    by_cases hc : c = client
    · rw [if_pos hc]
      apply iff_of_true
      · simp
      · exact ⟨tx, d, hl, by rw [hcl, hc]⟩
    · rw [if_neg hc]
      exact hacc c

theorem Inv_resolve (e : Engine) (client tx : Nat)
    (hI : Inv e) (h : (e.process_resolve client tx).2 = none) :
    Inv (e.process_resolve client tx).1 := by
  obtain ⟨hheld, hamt, hacc⟩ := hI
  simp only [heldOf, disputedHeld] at hheld
  obtain ⟨d, hl, hcl, hdisp, hstate⟩ := process_resolve_success e client tx h
  rw [hstate]
  refine ⟨?_, ?_, ?_⟩
  · intro c
    simp only [heldOf, disputedHeld]
    rw [heldOfA_set, disputedHeldD_set tx d _ _ c hl]
    have hc1 : contrib c { d with disputed := false } = 0 := by simp [contrib]
    rw [hc1, add_zero]
    by_cases hc : c = client
    · rw [if_pos hc]
      have hc0 : contrib c d = d.amount := by simp [contrib, hcl, hdisp, hc]
      rw [hc0]
      show (e.accounts.get_or_create client).held - d.amount = _
      rw [get_or_create_held, hc]
      rw [hheld client]
    · rw [if_neg hc]
      have hc0 : contrib c d = 0 := by
        have : ¬ d.client = c := by rw [hcl]; exact fun h' => hc h'.symm
        simp [contrib, this]
      rw [hc0, sub_zero]
      exact hheld c
  · intro p hp
    rcases mem_setKey _ _ _ _ hp with hp | hp
    · rw [hp]
      exact hamt (tx, d) (lookupKey_mem _ _ _ hl)
    · exact hamt p hp
  · intro c
    dsimp only
    rw [find?_set, exists_client_setKey tx d { d with disputed := false }
      e.transactions.deposits c hl rfl]
    by_cases hc : c = client
    · rw [if_pos hc]
      apply iff_of_true
      · simp
      · exact ⟨tx, d, hl, by rw [hcl, hc]⟩
    · rw [if_neg hc]
      exact hacc c

theorem Inv_chargeback (e : Engine) (client tx : Nat)
    (hI : Inv e) (h : (e.process_chargeback client tx).2 = none) :
    Inv (e.process_chargeback client tx).1 := by
  obtain ⟨hheld, hamt, hacc⟩ := hI
  simp only [heldOf, disputedHeld] at hheld
  obtain ⟨d, hl, hcl, hdisp, hstate⟩ := process_chargeback_success e client tx h
  rw [hstate]
  refine ⟨?_, ?_, ?_⟩
  · intro c
    simp only [heldOf, disputedHeld]
    rw [heldOfA_set, disputedHeldD_set tx d _ _ c hl]
    have hc1 : contrib c { d with disputed := false } = 0 := by simp [contrib]
    rw [hc1, add_zero]
    by_cases hc : c = client
    · rw [if_pos hc]
      have hc0 : contrib c d = d.amount := by simp [contrib, hcl, hdisp, hc]
      rw [hc0]
      show (e.accounts.get_or_create client).held - d.amount = _
      rw [get_or_create_held, hc]
      rw [hheld client]
    · rw [if_neg hc]
      have hc0 : contrib c d = 0 := by
        have : ¬ d.client = c := by rw [hcl]; exact fun h' => hc h'.symm
        simp [contrib, this]
      rw [hc0, sub_zero]
      exact hheld c
  · intro p hp
    rcases mem_setKey _ _ _ _ hp with hp | hp
    · rw [hp]
      exact hamt (tx, d) (lookupKey_mem _ _ _ hl)
    · exact hamt p hp
  · intro c
    dsimp only
    rw [find?_set, exists_client_setKey tx d { d with disputed := false }
      e.transactions.deposits c hl rfl]
    by_cases hc : c = client
    · rw [if_pos hc]
      apply iff_of_true
      · simp
      · exact ⟨tx, d, hl, by rw [hcl, hc]⟩
    · rw [if_neg hc]
      exact hacc c

theorem Inv_step (e : Engine) (t : Transaction) (hI : Inv e) :
    Inv (e.process_transaction t).1 := by
  cases hr : (e.process_transaction t).2 with
  | some err =>
      rw [process_transaction_error e t (by simp [hr])]
      exact hI
  | none =>
      unfold Engine.process_transaction at hr ⊢
      cases h0 : e.accounts.check_account_lock t.client with
      | some err => simp [h0] at hr
      | none =>
          simp only [h0] at hr ⊢
          cases ht : t.tx_type <;> simp only [ht] at hr ⊢
          · cases ha : t.amount with
            | none => simp [ha] at hr
            | some a =>
                simp only [ha] at hr ⊢
                exact Inv_deposit e t.client t.tx a hI hr
          · cases ha : t.amount with
            | none => simp [ha] at hr
            | some a =>
                simp only [ha] at hr ⊢
                exact Inv_withdrawal e t.client t.tx a hI hr
          · exact Inv_dispute e t.client t.tx hI hr
          · exact Inv_resolve e t.client t.tx hI hr
          · exact Inv_chargeback e t.client t.tx hI hr

theorem Inv_processAll (e : Engine) (ts : List Transaction) (hI : Inv e) :
    Inv (Engine.processAll e ts) := by
  induction ts generalizing e with
  | nil => exact hI
  | cons t ts ih => exact ih (e.process_transaction t).1 (Inv_step e t hI)

/-- An account exists after one step iff it existed before or the step was
a successful deposit for that client.  Requires the invariant: a
successful dispute/resolve/chargeback targets a client who already has an
account. -/
theorem accounts_isSome_step (e : Engine) (t : Transaction) (hI : Inv e) (c : Nat) :
    (((e.process_transaction t).1.accounts.find? c).isSome = true) ↔
      (((e.accounts.find? c).isSome = true) ∨
        (t.tx_type = .Deposit ∧ (e.process_transaction t).2 = none ∧ t.client = c)) := by
  obtain ⟨-, -, hacc⟩ := hI
  cases hr : (e.process_transaction t).2 with
  | some err =>
      rw [process_transaction_error e t (by simp [hr])]
      simp [hr]
  | none =>
      unfold Engine.process_transaction at hr ⊢
      cases h0 : e.accounts.check_account_lock t.client with
      | some err => simp [h0] at hr
      | none =>
          simp only [h0] at hr ⊢
          cases ht : t.tx_type <;> simp only [ht] at hr ⊢
          · -- Deposit
            cases ha : t.amount with
            | none => simp [ha] at hr
            | some a =>
                simp only [ha] at hr ⊢
                obtain ⟨-, -, -, hstate⟩ := process_deposit_success e t.client t.tx a hr
                rw [hstate]
                show ((AccountsStore.set _ _ _).find? c).isSome = true ↔ _
                rw [find?_set]
                by_cases hc : c = t.client
                · rw [if_pos hc]
                  simp [hc.symm]
                · rw [if_neg hc]
                  simp
                  intro h'
                  exact absurd h'.symm hc
          · -- Withdrawal
            cases ha : t.amount with
            | none => simp [ha] at hr
            | some a =>
                simp only [ha] at hr ⊢
                obtain ⟨account, hfind, -, -, -, hstate⟩ :=
                  process_withdrawal_success e t.client t.tx a hr
                rw [hstate]
                show ((AccountsStore.set _ _ _).find? c).isSome = true ↔ _
                rw [find?_set]
                by_cases hc : c = t.client
                · rw [if_pos hc]
                  simp [hc, hfind]
                · rw [if_neg hc]
                  simp
          · -- Dispute
            obtain ⟨d, hl, hcl, -, hstate⟩ := process_dispute_success e t.client t.tx hr
            have hex : (e.accounts.find? t.client).isSome = true :=
              (hacc t.client).mpr ⟨t.tx, d, hl, hcl⟩
            rw [hstate]
            show ((AccountsStore.set _ _ _).find? c).isSome = true ↔ _
            rw [find?_set]
            by_cases hc : c = t.client
            · rw [if_pos hc]
              simp [hc, hex]
            · rw [if_neg hc]
              simp
          · -- Resolve
            obtain ⟨d, hl, hcl, -, hstate⟩ := process_resolve_success e t.client t.tx hr
            have hex : (e.accounts.find? t.client).isSome = true :=
              (hacc t.client).mpr ⟨t.tx, d, hl, hcl⟩
            rw [hstate]
            show ((AccountsStore.set _ _ _).find? c).isSome = true ↔ _
            rw [find?_set]
            by_cases hc : c = t.client
            · rw [if_pos hc]
              simp [hc, hex]
            · rw [if_neg hc]
              simp
          · -- Chargeback
            obtain ⟨d, hl, hcl, -, hstate⟩ := process_chargeback_success e t.client t.tx hr
            have hex : (e.accounts.find? t.client).isSome = true :=
              (hacc t.client).mpr ⟨t.tx, d, hl, hcl⟩
            rw [hstate]
            show ((AccountsStore.set _ _ _).find? c).isSome = true ↔ _
            rw [find?_set]
            by_cases hc : c = t.client
            · rw [if_pos hc]
              simp [hc, hex]
            · rw [if_neg hc]
              simp

theorem accounts_isSome_processAll (ts : List Transaction) (e : Engine)
    (hI : Inv e) (c : Nat) :
    ((Engine.processAll e ts).accounts.find? c).isSome = true ↔
      ((e.accounts.find? c).isSome = true ∨ c ∈ depositClients e ts) := by
  induction ts generalizing e with
  | nil => simp [Engine.processAll, depositClients]
  | cons t ts ih =>
      have hstep := accounts_isSome_step e t hI c
      have hrest := ih (e.process_transaction t).1 (Inv_step e t hI)
      simp only [Engine.processAll, depositClients]
      rw [hrest, hstep]
      by_cases hp : t.tx_type = .Deposit ∧ (e.process_transaction t).2 = none
      · rw [if_pos hp]
        have hconj : (t.tx_type = .Deposit ∧ (e.process_transaction t).2 = none ∧
            t.client = c) ↔ t.client = c :=
          ⟨fun h => h.2.2, fun h => ⟨hp.1, hp.2, h⟩⟩
        rw [hconj]
        simp only [List.singleton_append, List.mem_cons]
        constructor
        · rintro ((h | h) | h)
          · exact Or.inl h
          · exact Or.inr (Or.inl h.symm)
          · exact Or.inr (Or.inr h)
        · rintro (h | (h | h))
          · exact Or.inl (Or.inl h)
          · exact Or.inl (Or.inr h.symm)
          · exact Or.inr h
      · have hne : ¬ (t.tx_type = .Deposit ∧ (e.process_transaction t).2 = none ∧
            t.client = c) := fun ⟨h1, h2, _⟩ => hp ⟨h1, h2⟩
        rw [if_neg hp]
        simp only [List.nil_append]
        constructor
        · rintro ((h | h) | h)
          · exact Or.inl h
          · exact absurd h hne
          · exact Or.inr h
        · rintro (h | h)
          · exact Or.inl (Or.inl h)
          · exact Or.inr h

/-- Claim C8: an account is created only by a successful deposit.  In
every state reachable from a fresh engine, the set of existing accounts
is exactly the set of clients credited by at least one successful deposit
along the run. -/
theorem claim_C8 (ts : List Transaction) (c : Nat) :
    ((Engine.processAll Engine.new ts).accounts.find? c).isSome = true ↔
      c ∈ depositClients Engine.new ts := by
  rw [accounts_isSome_processAll ts Engine.new Inv_new c]
  simp [Engine.new, AccountsStore.new, AccountsStore.find?, lookupKey]

/-- Claim C10: in every engine state reachable from a fresh engine, each
account's `held` balance equals the exact sum of the amounts of the
stored deposit records owned by that client whose `disputed` flag is
true; in particular `held` is never negative. -/
theorem claim_C10 (ts : List Transaction) (c : Nat) :
    heldOf (Engine.processAll Engine.new ts) c =
      disputedHeld (Engine.processAll Engine.new ts) c ∧
    0 ≤ heldOf (Engine.processAll Engine.new ts) c := by
  obtain ⟨hheld, hamt, -⟩ := Inv_processAll Engine.new ts Inv_new
  refine ⟨hheld c, ?_⟩
  rw [hheld c]
  unfold disputedHeld disputedHeldD
  apply List.sum_nonneg
  intro x hx
  obtain ⟨p, hp, rfl⟩ := List.mem_map.mp hx
  unfold contrib
  split
  · exact (hamt p hp).le
  · exact le_refl 0

end RustyReckoning
